import Mathlib

/-!
Shallow embedding of `win-key-event` (`src/lib.rs`), a Windows keyboard
poller.  The external `GetAsyncKeyState` collaborator is modelled as an
oracle: every function that the Rust code derives from a raw query takes
the sampled value as an explicit argument.  The i16 sample is modelled as
an `Int`; the mask test `state & KEY_DOWN_MASK != 0` (bit 15 of the 16-bit
two's-complement pattern) becomes an explicit test on `state % 2^16`.
The tokio mpsc channel is modelled as the list of events the watch loop
enqueues, in order; the dispatcher consumes that list.  The atomic running
flag is a `Bool` threaded through the loop state, with external `quit`
requests given by a schedule.
-/

namespace WinKeyEvent

/-- `const KEY_DOWN_MASK: i16 = -32768;` -/
def KEY_DOWN_MASK : Int := -32768

/-- `enum KeyEvent { Press(i32), Release(i32) }` -/
inductive KeyEvent where
  | Press (vk : Int)
  | Release (vk : Int)
deriving DecidableEq, Repr

/-- `enum KeyState { KeyPress, KeyRelease, StaticDown, StaticUp }` -/
inductive KeyState where
  | KeyPress
  | KeyRelease
  | StaticDown
  | StaticUp
deriving DecidableEq, Repr

/-- `let is_down = (state & KEY_DOWN_MASK) != 0;` — with `KEY_DOWN_MASK`
equal to `-32768 = 0x8000 : i16`, this tests bit 15 of the 16-bit
two's-complement pattern of the sampled value. -/
def key_down_test (state : Int) : Bool :=
  (state.emod 65536) / 32768 == 1

/-- The boolean classification core of `get_key_state` (the nested `if
is_down { if was_down { .. } .. }`). -/
def classify (is_down was_down : Bool) : KeyState :=
  if is_down then
    if was_down then KeyState.StaticDown else KeyState.KeyPress
  else
    if was_down then KeyState.KeyRelease else KeyState.StaticUp

/-- `fn get_key_state(vk_code: &i32, i: usize, previous_key_states: &mut Vec<bool>) -> KeyState`.
The raw `GetAsyncKeyState(*vk_code)` sample is passed in as `state`; the
mutation of `previous_key_states[i]` is returned as the second component. -/
def get_key_state (state : Int) (i : Nat) (previous_key_states : List Bool) :
    KeyState × List Bool :=
  let is_down := key_down_test state
  let was_down := previous_key_states.getD i false
  let previous' := previous_key_states.set i is_down
  (if is_down then
    if was_down then KeyState.StaticDown else KeyState.KeyPress
   else
    if was_down then KeyState.KeyRelease else KeyState.StaticUp,
   previous')

/-- `pub struct KeyListener`.  The `UnboundedSender<KeyEvent>` field is not
part of the pure state (the channel is modelled as the emitted event list),
and `Arc<AtomicBool>` becomes a plain `Bool`. -/
structure KeyListener where
  vk_codes : List Int
  previous_key_states : List Bool
  polling_wait : Nat
  is_watching : Bool
deriving DecidableEq, Repr

/-- The fixed default watch set of `KeyListener::new_default`. -/
def default_vk_codes : List Int :=
  [0x30, 0x31, 0x32, 0x33, 0x34, 0x35, 0x36, 0x37, 0x38, 0x39,
   -- 0 - 9 (numpad)
   0x60, 0x61, 0x62, 0x63, 0x64, 0x65, 0x66, 0x67, 0x68, 0x69,
   -- a - z
   0x41, 0x42, 0x43, 0x44, 0x45, 0x46, 0x47, 0x48, 0x49, 0x4A, 0x4B, 0x4C,
   0x4D, 0x4E, 0x4F, 0x50, 0x51, 0x52, 0x53, 0x54, 0x55, 0x56, 0x57, 0x58,
   0x59, 0x5A,
   -- punctuation, symbols
   0xBA, 0xBB, 0xBC, 0xBD, 0xBE, 0xBF, 0xC0, 0xDB, 0xDC, 0xDD, 0xDE,
   -- space, enter, backspace, tab
   0x20, 0x0D, 0x08, 0x09,
   -- numpad operators
   0x6A, 0x6B, 0x6D, 0x6E, 0x6F,
   -- shift: left, right, generic
   0xA0, 0xA1, 0x10]

/-- `fn new_default(unbounded_sender) -> Self` (sender dropped from the
pure model): `previous_key_states: vec![false; 69]`, `polling_wait: 10`,
`is_watching: AtomicBool::new(false)`. -/
def KeyListener.new_default : KeyListener :=
  { vk_codes := default_vk_codes
    previous_key_states := List.replicate 69 false
    polling_wait := 10
    is_watching := false }

/-- `fn new_custom(unbounded_sender, vk_codes, polling_wait) -> Self`:
`previous_key_states: vec![false; *key_num]` where `key_num = vk_codes.len()`. -/
def KeyListener.new_custom (vk_codes : List Int) (polling_wait : Nat) :
    KeyListener :=
  { vk_codes := vk_codes
    previous_key_states := List.replicate vk_codes.length false
    polling_wait := polling_wait
    is_watching := false }

/-- `pub fn quit(&mut self) { self.is_watching.store(false, Ordering::Relaxed); }` -/
def KeyListener.quit (l : KeyListener) : KeyListener :=
  { l with is_watching := false }

/-- The `match key_state { .. }` arms in `listen`: StaticUp/StaticDown
enqueue nothing; KeyRelease/KeyPress enqueue the corresponding event. -/
def transition_events (st : KeyState) (vk : Int) : List KeyEvent :=
  match st with
  | KeyState.StaticUp => []
  | KeyState.StaticDown => []
  | KeyState.KeyRelease => [KeyEvent.Release vk]
  | KeyState.KeyPress => [KeyEvent.Press vk]

/-- The body of `for i in 0..vk_codes.len()` in `listen`, started at index
`i` with `n` iterations remaining.  `raw j` is the `GetAsyncKeyState`
sample the iteration for index `j` observes this pass.  Returns the events
enqueued (in emission order) and the final `previous_key_states`. -/
def listen_pass_aux (raw : Nat → Int) (vk_codes : List Int) :
    Nat → Nat → List Bool → List KeyEvent × List Bool
  | 0, _, prev => ([], prev)
  | n + 1, i, prev =>
    let vk_code := vk_codes.getD i 0
    let r := get_key_state (raw i) i prev
    let rest := listen_pass_aux raw vk_codes n (i + 1) r.2
    (transition_events r.1 vk_code ++ rest.1, rest.2)

/-- One full pass of the watch loop over the whole watch set
(`for i in 0..vk_codes.len()` in `listen`). -/
def listen_pass (raw : Nat → Int) (vk_codes : List Int) (prev : List Bool) :
    List KeyEvent × List Bool :=
  listen_pass_aux raw vk_codes vk_codes.length 0 prev

/-- Several consecutive passes (one per tick), each with its own sample
oracle; events concatenate in FIFO order across ticks. -/
def run_ticks (vk_codes : List Int) :
    List (Nat → Int) → List Bool → List KeyEvent × List Bool
  | [], prev => ([], prev)
  | raw :: raws, prev =>
    let p := listen_pass raw vk_codes prev
    let rest := run_ticks vk_codes raws p.2
    (p.1 ++ rest.1, rest.2)

/-- The `while is_watching.load(..)` loop of `listen`, with fuel bounding
the number of passes observed.  `raws t` is the sample oracle of pass `t`;
`quit_sched t = true` means `quit()` stores `false` into the flag during
pass `t` or the following sleep (i.e. after the top-of-pass check for `t`
and before the one for `t + 1`).  The flag is consulted only at the top of
each pass, exactly as in the source. -/
def listen_loop (raws : Nat → Nat → Int) (quit_sched : Nat → Bool)
    (vk_codes : List Int) :
    Nat → Nat → List Bool → Bool → List KeyEvent
  | 0, _, _, _ => []
  | fuel + 1, t, prev, flag =>
    if flag then
      let p := listen_pass (raws t) vk_codes prev
      p.1 ++ listen_loop raws quit_sched vk_codes fuel (t + 1) p.2 (!quit_sched t)
    else []

/-- `async fn listen(..)`: its first action is
`is_watching.store(true, Ordering::Relaxed)` — the incoming flag value
`flag0` is overwritten unconditionally — then the while loop runs. -/
def listen_run (raws : Nat → Nat → Int) (quit_sched : Nat → Bool)
    (vk_codes : List Int) (fuel : Nat) (prev : List Bool) (flag0 : Bool) :
    List KeyEvent :=
  let _ := flag0
  listen_loop raws quit_sched vk_codes fuel 0 prev true

/-- Unconditional runs of `n` passes starting at tick `t0` (the loop's
behaviour while nobody calls `quit`). -/
def run_passes (raws : Nat → Nat → Int) (vk_codes : List Int) :
    Nat → Nat → List Bool → List KeyEvent
  | 0, _, _ => []
  | n + 1, t, prev =>
    let p := listen_pass (raws t) vk_codes prev
    p.1 ++ run_passes raws vk_codes n (t + 1) p.2

/-- A callback invocation made by the dispatcher task:
`key_down_callback(vk)` or `key_up_callback(vk)`. -/
inductive CallbackCall where
  | down (vk : Int)
  | up (vk : Int)
deriving DecidableEq, Repr

/-- Which callback `spawn_receiver` invokes for one received event. -/
def call_of_event : KeyEvent → CallbackCall
  | KeyEvent.Press vk => CallbackCall.down vk
  | KeyEvent.Release vk => CallbackCall.up vk

/-- The dispatcher loop of `spawn_receiver`:
`while let Some(key_event) = receiver.recv().await { match .. }` over the
queue contents, producing the callback-invocation trace in arrival order. -/
def spawn_receiver_trace : List KeyEvent → List CallbackCall
  | [] => []
  | KeyEvent.Press vk :: rest => CallbackCall.down vk :: spawn_receiver_trace rest
  | KeyEvent.Release vk :: rest => CallbackCall.up vk :: spawn_receiver_trace rest

/-- `let _ = sender.send(e);` with the consumer's liveness made explicit:
when the receiver has been dropped the send returns `Err`, which the
`let _ =` discards, so the event is silently dropped. -/
def send_event (receiver_open : Bool) (queue : List KeyEvent) (e : KeyEvent) :
    List KeyEvent :=
  if receiver_open then queue ++ [e] else queue

/-- `listen_pass_aux` with the channel queue threaded through `send_event`,
refining the same source lines for the failure-semantics analysis. -/
def listen_pass_ch_aux (receiver_open : Bool) (raw : Nat → Int)
    (vk_codes : List Int) :
    Nat → Nat → List KeyEvent → List Bool → List KeyEvent × List Bool
  | 0, _, queue, prev => (queue, prev)
  | n + 1, i, queue, prev =>
    let vk_code := vk_codes.getD i 0
    let r := get_key_state (raw i) i prev
    let queue' :=
      match r.1 with
      | KeyState.StaticUp => queue
      | KeyState.StaticDown => queue
      | KeyState.KeyRelease => send_event receiver_open queue (KeyEvent.Release vk_code)
      | KeyState.KeyPress => send_event receiver_open queue (KeyEvent.Press vk_code)
    listen_pass_ch_aux receiver_open raw vk_codes n (i + 1) queue' r.2

/-- One full pass with the channel queue and consumer liveness explicit. -/
def listen_pass_ch (receiver_open : Bool) (raw : Nat → Int)
    (vk_codes : List Int) (queue : List KeyEvent) (prev : List Bool) :
    List KeyEvent × List Bool :=
  listen_pass_ch_aux receiver_open raw vk_codes vk_codes.length 0 queue prev

/-- `alternates_from e evs` holds when `evs` strictly alternates between
Press and Release, the next expected kind being Press iff `e`. -/
def alternates_from (expect_press : Bool) : List KeyEvent → Bool
  | [] => true
  | KeyEvent.Press _ :: rest => expect_press && alternates_from false rest
  | KeyEvent.Release _ :: rest => (!expect_press) && alternates_from true rest

/-- A raw sample with bit 15 set (key physically down): the value
`GetAsyncKeyState` reports for a held key. -/
def sample_down : Int := -32768

/-- A raw sample with bit 15 clear (key up). -/
def sample_up : Int := 0

end WinKeyEvent

namespace WinKeyEvent

/-- The first component of `get_key_state` is the pure classification of
the derived (is_down, was_down) pair. -/
theorem get_key_state_fst (s : Int) (i : Nat) (p : List Bool) :
    (get_key_state s i p).1 = classify (key_down_test s) (p.getD i false) := rfl

/-- The second component of `get_key_state` is the state vector with entry
`i` overwritten by the fresh sample, whatever the classification was. -/
theorem get_key_state_snd (s : Int) (i : Nat) (p : List Bool) :
    (get_key_state s i p).2 = p.set i (key_down_test s) := rfl

theorem getD_set_of_ne {l : List Bool} {i j : Nat} (h : i ≠ j) (a : Bool) :
    (l.set i a).getD j false = l.getD j false := by
  simp [List.getD_eq_getElem?_getD, List.getElem?_set_ne h]

/-- Events emitted by the tail of a pass, characterised index by index:
iteration `i + t` emits according to the classification of the fresh
sample against the state vector as it stood at the start of the pass
(earlier iterations only overwrite strictly smaller indices). -/
theorem listen_pass_aux_events (raw : Nat → Int) (vk : List Int) :
    ∀ (n i : Nat) (prev : List Bool),
      (listen_pass_aux raw vk n i prev).1
        = (List.range n).flatMap (fun t =>
            transition_events
              (classify (key_down_test (raw (i + t))) (prev.getD (i + t) false))
              (vk.getD (i + t) 0)) := by
  intro n
  induction n with
  | zero => intro i prev; simp [listen_pass_aux]
  | succ n ih =>
    intro i prev
    rw [List.range_succ_eq_map]
    rw [List.flatMap_cons, List.flatMap_map]
    simp only [listen_pass_aux, get_key_state_fst, get_key_state_snd]
    rw [ih]
    congr 1
    apply congrArg ((List.range n).flatMap)
    funext t
    have hne : i ≠ i + 1 + t := by omega
    have harith : i + 1 + t = i + (t + 1) := by omega
    rw [getD_set_of_ne hne, harith]

/-- The state vector a pass tail leaves behind: entries in `[i, i + n)`
hold the fresh samples, the rest are untouched (given the indices stay in
bounds, as the loop guarantees). -/
theorem listen_pass_aux_prev (raw : Nat → Int) (vk : List Int) :
    ∀ (n i : Nat) (prev : List Bool), i + n ≤ prev.length → ∀ j : Nat,
      ((listen_pass_aux raw vk n i prev).2).getD j false
        = if i ≤ j ∧ j < i + n then key_down_test (raw j)
          else prev.getD j false := by
  intro n
  induction n with
  | zero =>
    intro i prev _ j
    have h : ¬ (i ≤ j ∧ j < i + 0) := by omega
    simp only [listen_pass_aux]
    rw [if_neg h]
  | succ n ih =>
    intro i prev hlen j
    simp only [listen_pass_aux, get_key_state_snd]
    have hlen' : i + 1 + n ≤ (prev.set i (key_down_test (raw i))).length := by
      simp [List.length_set]; omega
    rw [ih (i + 1) _ hlen' j]
    by_cases hj : j = i
    · subst hj
      have h1 : ¬ (j + 1 ≤ j ∧ j < j + 1 + n) := by omega
      have h2 : j ≤ j ∧ j < j + (n + 1) := by omega
      have hjlt : j < prev.length := by omega
      rw [if_neg h1, if_pos h2, List.getD_eq_getElem?_getD,
        List.getElem?_set_self hjlt, Option.getD_some]
    · rw [getD_set_of_ne (fun he => hj he.symm)]
      have hiff : (i + 1 ≤ j ∧ j < i + 1 + n) ↔ (i ≤ j ∧ j < i + (n + 1)) := by
        omega
      by_cases hc : i + 1 ≤ j ∧ j < i + 1 + n
      · rw [if_pos hc, if_pos (hiff.mp hc)]
      · rw [if_neg hc, if_neg (fun h => hc (hiff.mpr h))]

theorem listen_pass_aux_length (raw : Nat → Int) (vk : List Int) :
    ∀ (n i : Nat) (prev : List Bool),
      ((listen_pass_aux raw vk n i prev).2).length = prev.length := by
  intro n
  induction n with
  | zero => intro i prev; rfl
  | succ n ih =>
    intro i prev
    simp only [listen_pass_aux, get_key_state_snd]
    rw [ih, List.length_set]

/-- The events of one full pass, in emission order: iteration `i` emits
according to the classification of its fresh sample against the pass-start
state vector. -/
theorem listen_pass_events (raw : Nat → Int) (vk : List Int) (prev : List Bool) :
    (listen_pass raw vk prev).1
      = (List.range vk.length).flatMap (fun i =>
          transition_events
            (classify (key_down_test (raw i)) (prev.getD i false))
            (vk.getD i 0)) := by
  rw [listen_pass, listen_pass_aux_events]
  apply congrArg ((List.range vk.length).flatMap)
  funext t
  rw [Nat.zero_add]

theorem listen_pass_length (raw : Nat → Int) (vk : List Int) (prev : List Bool) :
    ((listen_pass raw vk prev).2).length = prev.length :=
  listen_pass_aux_length raw vk vk.length 0 prev

theorem listen_pass_prev_getD (raw : Nat → Int) (vk : List Int)
    (prev : List Bool) (h : vk.length ≤ prev.length) (j : Nat) :
    ((listen_pass raw vk prev).2).getD j false
      = if j < vk.length then key_down_test (raw j) else prev.getD j false := by
  rw [listen_pass, listen_pass_aux_prev raw vk vk.length 0 prev (by omega) j]
  by_cases hj : j < vk.length
  · rw [if_pos ⟨Nat.zero_le j, by omega⟩, if_pos hj]
  · rw [if_neg (by omega), if_neg hj]

/-- C7: the previous-state entry for every index is overwritten with the
fresh `is_down` sample on every iteration — also when the classification
is StaticDown or StaticUp — so after a full pass the previous-state vector
equals the vector of the samples just taken. -/
theorem pass_updates_prev_unconditionally :
    (∀ (s : Int) (i : Nat) (p : List Bool),
        (get_key_state s i p).2 = p.set i (key_down_test s))
    ∧ ∀ (raw : Nat → Int) (vk : List Int) (prev : List Bool),
        prev.length = vk.length →
        (listen_pass raw vk prev).2
          = (List.range vk.length).map (fun i => key_down_test (raw i)) := by
  refine ⟨fun s i p => rfl, fun raw vk prev h => ?_⟩
  apply List.ext_getElem?
  intro j
  by_cases hj : j < vk.length
  · have hl : j < ((listen_pass raw vk prev).2).length := by
      rw [listen_pass_length, h]; exact hj
    have hr : j < ((List.range vk.length).map
        (fun i => key_down_test (raw i))).length := by
      simpa using hj
    rw [List.getElem?_eq_getElem hl, List.getElem?_eq_getElem hr]
    have := listen_pass_prev_getD raw vk prev (by omega) j
    rw [if_pos hj] at this
    rw [List.getD_eq_getElem _ false hl] at this
    rw [this]
    simp
  · have hl : ((listen_pass raw vk prev).2).length ≤ j := by
      rw [listen_pass_length, h]; omega
    have hr : ((List.range vk.length).map
        (fun i => key_down_test (raw i))).length ≤ j := by
      simpa using (by omega : vk.length ≤ j)
    rw [List.getElem?_eq_none hl, List.getElem?_eq_none hr]

/-- Closed witness for `pass_updates_prev_unconditionally`: a one-key pass
with the key held down (StaticDown classification) still overwrites the
stored state with the fresh sample. -/
theorem pass_updates_prev_unconditionally_witness :
    (listen_pass (fun _ => sample_down) [0x41] [true]).2
      = (List.range 1).map (fun i => key_down_test ((fun _ => sample_down) i)) :=
  pass_updates_prev_unconditionally.2 (fun _ => sample_down) [0x41] [true] rfl

/-- An event arises from a classification only when the sampled state
actually changed, and then it carries that iteration's key code. -/
theorem mem_transition_events {e : KeyEvent} {d w : Bool} {k : Int}
    (h : e ∈ transition_events (classify d w) k) :
    d ≠ w ∧ (e = KeyEvent.Press k ∨ e = KeyEvent.Release k) := by
  cases d <;> cases w <;>
    simp [classify, transition_events] at h <;>
    simp [h]

/-- C2: when the fresh sample for a watched key equals its stored previous
state (held down or held up), the pass enqueues no Press and no Release
for that key; StaticDown/StaticUp classifications translate to no events
at all. -/
theorem held_key_silent (raw : Nat → Int) (vk : List Int) (prev : List Bool)
    (i : Nat) (hi : i < vk.length) (hnd : vk.Nodup)
    (hheld : key_down_test (raw i) = prev.getD i false) :
    (∀ e ∈ (listen_pass raw vk prev).1,
        e ≠ KeyEvent.Press (vk.getD i 0) ∧ e ≠ KeyEvent.Release (vk.getD i 0))
    ∧ ∀ k : Int, transition_events KeyState.StaticDown k = []
        ∧ transition_events KeyState.StaticUp k = [] := by
  refine ⟨?_, fun k => ⟨rfl, rfl⟩⟩
  intro e he
  rw [listen_pass_events] at he
  obtain ⟨t, htr, hmem⟩ := List.mem_flatMap.1 he
  have ht : t < vk.length := List.mem_range.1 htr
  have hkey : vk.getD t 0 = vk.getD i 0 → t = i := by
    intro hgd
    rw [List.getD_eq_getElem _ 0 ht, List.getD_eq_getElem _ 0 hi] at hgd
    exact (hnd.getElem_inj_iff).1 hgd
  obtain ⟨hdw, hPR⟩ := mem_transition_events hmem
  have hti : vk.getD t 0 = vk.getD i 0 → False := by
    intro hgd
    have hEq := hkey hgd
    subst hEq
    exact hdw hheld
  constructor
  · intro heq
    rcases hPR with h1 | h1
    · rw [heq] at h1
      injection h1 with hv
      exact hti hv.symm
    · rw [heq] at h1
      exact KeyEvent.noConfusion h1
  · intro heq
    rcases hPR with h1 | h1
    · rw [heq] at h1
      exact KeyEvent.noConfusion h1
    · rw [heq] at h1
      injection h1 with hv
      exact hti hv.symm

/-- Closed witness for `held_key_silent`: a single watched key held down
across two consecutive samples (previous state already `true`, fresh
sample down) produces no event for it on the second tick. -/
theorem held_key_silent_witness :
    (∀ e ∈ (listen_pass (fun _ => sample_down) [0x41] [true]).1,
        e ≠ KeyEvent.Press (([0x41] : List Int).getD 0 0)
        ∧ e ≠ KeyEvent.Release (([0x41] : List Int).getD 0 0))
    ∧ ∀ k : Int, transition_events KeyState.StaticDown k = []
        ∧ transition_events KeyState.StaticUp k = [] :=
  held_key_silent (fun _ => sample_down) [0x41] [true] 0 (by decide)
    (by decide) (by decide)

/-- C4: the dispatcher invokes exactly one callback per event — the press
callback for Press, the release callback for Release — in precisely the
order the watch loop enqueued them; within one tick that order is
watch-set index order, and across ticks events concatenate FIFO. -/
theorem dispatch_order_preserved :
    (∀ evs : List KeyEvent,
        spawn_receiver_trace evs = evs.map call_of_event)
    ∧ (∀ (raw : Nat → Int) (vk : List Int) (prev : List Bool),
        (listen_pass raw vk prev).1
          = (List.range vk.length).flatMap (fun i =>
              transition_events
                (classify (key_down_test (raw i)) (prev.getD i false))
                (vk.getD i 0)))
    ∧ (∀ (r : Nat → Int) (raws : List (Nat → Int)) (vk : List Int)
          (prev : List Bool),
        (run_ticks vk (r :: raws) prev).1
          = (listen_pass r vk prev).1
            ++ (run_ticks vk raws (listen_pass r vk prev).2).1) := by
  refine ⟨?_, listen_pass_events, fun r raws vk prev => rfl⟩
  intro evs
  induction evs with
  | nil => rfl
  | cons e rest ih =>
    cases e <;> simp [spawn_receiver_trace, call_of_event, ih]

/-- C1: `get_key_state` classifies exactly by the four-row truth table on
(is_down, was_down): (T,F)↦Press, (T,T)↦StaticDown, (F,T)↦Release,
(F,F)↦StaticUp; it is total (defined for every sample, index and state
vector), with no error condition. -/
theorem get_key_state_truth_table :
    (∀ (state : Int) (i : Nat) (prev : List Bool),
        (get_key_state state i prev).1
          = classify (key_down_test state) (prev.getD i false))
    ∧ classify true false = KeyState.KeyPress
    ∧ classify true true = KeyState.StaticDown
    ∧ classify false true = KeyState.KeyRelease
    ∧ classify false false = KeyState.StaticUp := by
  refine ⟨fun state i prev => ?_, rfl, rfl, rfl, rfl⟩
  simp only [get_key_state, classify]

/-- C6: `quit` is idempotent: a second `quit` changes nothing, and `quit`
on an already-stopped listener returns the state unchanged. -/
theorem quit_idempotent :
    (∀ l : KeyListener, (l.quit).quit = l.quit)
    ∧ (∀ l : KeyListener, l.is_watching = false → l.quit = l)
    ∧ (∀ l : KeyListener, (l.quit).is_watching = false) := by
  refine ⟨fun l => rfl, fun l h => ?_, fun l => rfl⟩
  cases l with
  | mk vk prev pw w => cases h; rfl

/-- Closed witness for the hypothesis of `quit_idempotent`: the default
listener starts with the flag clear, and `quit` leaves it unchanged. -/
theorem quit_idempotent_witness :
    KeyListener.new_default.quit = KeyListener.new_default :=
  quit_idempotent.2.1 KeyListener.new_default rfl

/-- C8: both constructors establish `len(watch_set) == len(previous_states)`
with every previous state `false`: custom construction with a list of
length `n` yields `replicate n false`; default construction yields a
69-entry `false` vector matching the 69-key default list; `quit` and a
watch-loop pass preserve the lengths. -/
theorem constructors_establish_invariant :
    (∀ (codes : List Int) (pw : Nat),
        (KeyListener.new_custom codes pw).previous_key_states
            = List.replicate codes.length false
        ∧ (KeyListener.new_custom codes pw).vk_codes = codes)
    ∧ KeyListener.new_default.previous_key_states = List.replicate 69 false
    ∧ KeyListener.new_default.vk_codes.length = 69
    ∧ KeyListener.new_default.previous_key_states.length
        = KeyListener.new_default.vk_codes.length
    ∧ (∀ (codes : List Int) (pw : Nat),
        (KeyListener.new_custom codes pw).previous_key_states.length
          = (KeyListener.new_custom codes pw).vk_codes.length)
    ∧ (∀ l : KeyListener,
        (l.quit).vk_codes = l.vk_codes
        ∧ (l.quit).previous_key_states = l.previous_key_states)
    ∧ (∀ (raw : Nat → Int) (vk : List Int) (prev : List Bool),
        ((listen_pass raw vk prev).2).length = prev.length) := by
  refine ⟨fun codes pw => ⟨rfl, rfl⟩, rfl, rfl, rfl, ?_,
    fun l => ⟨rfl, rfl⟩, listen_pass_length⟩
  intro codes pw
  simp [KeyListener.new_custom]

theorem key_down_test_sample_down : key_down_test sample_down = true := by
  decide

theorem key_down_test_sample_up : key_down_test sample_up = false := by
  decide

/-- A pass over a one-key watch set: emit by the classification of the
fresh sample against the stored state, and store the fresh sample. -/
theorem listen_pass_single (raw : Nat → Int) (k : Int) (b : Bool) :
    listen_pass raw [k] [b]
      = (transition_events (classify (key_down_test (raw 0)) b) k,
         [key_down_test (raw 0)]) := by
  cases hd : key_down_test (raw 0) <;> cases b <;>
    simp [listen_pass, listen_pass_aux, get_key_state, classify, hd,
      transition_events]

/-- Events of a one-key run strictly alternate, the first one (if any)
being Press exactly when the key started in the up state. -/
theorem run_ticks_single_alternates (k : Int) :
    ∀ (raws : List (Nat → Int)) (b : Bool),
      alternates_from (!b) (run_ticks [k] raws [b]).1 = true := by
  intro raws
  induction raws with
  | nil => intro b; rfl
  | cons r rs ih =>
    intro b
    rw [run_ticks]
    rw [listen_pass_single]
    cases hd : key_down_test (r 0) <;> cases b <;>
      simp [classify, transition_events, alternates_from, ih] <;>
      first
        | simpa using ih false
        | simpa using ih true

/-- A loop whose flag is already clear at the top-of-pass check emits
nothing at all. -/
theorem listen_loop_stopped (raws : Nat → Nat → Int) (sched : Nat → Bool)
    (vk : List Int) :
    ∀ (fuel t : Nat) (prev : List Bool),
      listen_loop raws sched vk fuel t prev false = [] := by
  intro fuel
  cases fuel <;> intro t prev <;> simp [listen_loop]

/-- `run_passes` only consults the sample oracle on the ticks it runs. -/
theorem run_passes_congr (raws raws' : Nat → Nat → Int) (vk : List Int) :
    ∀ (n t : Nat) (prev : List Bool),
      (∀ s, t ≤ s → s < t + n → raws' s = raws s) →
      run_passes raws' vk n t prev = run_passes raws vk n t prev := by
  intro n
  induction n with
  | zero => intro t prev _; rfl
  | succ n ih =>
    intro t prev h
    simp only [run_passes]
    rw [h t (Nat.le_refl t) (by omega)]
    congr 1
    exact ih (t + 1) _ (fun s hs1 hs2 => h s (by omega) (by omega))

/-- If the first `quit` request lands during pass `t0 + t`, the loop runs
exactly passes `t0 .. t0 + t` — the interrupted pass still completes in
full — and then exits at the next top-of-pass check. -/
theorem listen_loop_first_quit (raws : Nat → Nat → Int) (sched : Nat → Bool)
    (vk : List Int) :
    ∀ (t fuel t0 : Nat) (prev : List Bool),
      (∀ s, s < t → sched (t0 + s) = false) →
      sched (t0 + t) = true →
      t + 1 ≤ fuel →
      listen_loop raws sched vk fuel t0 prev true
        = run_passes raws vk (t + 1) t0 prev := by
  intro t
  induction t with
  | zero =>
    intro fuel t0 prev _ hq hf
    cases fuel with
    | zero => exact absurd hf (by omega)
    | succ fuel =>
      have hq0 : sched t0 = true := by simpa using hq
      simp only [listen_loop, run_passes, if_true, hq0, Bool.not_true]
      rw [listen_loop_stopped]
  | succ t ih =>
    intro fuel t0 prev hpre hq hf
    cases fuel with
    | zero => exact absurd hf (by omega)
    | succ fuel =>
      have h0 : sched t0 = false := by simpa using hpre 0 (Nat.succ_pos t)
      simp only [listen_loop, run_passes, if_true, h0, Bool.not_false]
      congr 1
      refine ih fuel (t0 + 1) _ ?_ ?_ (by omega)
      · intro s hs
        have harith : t0 + 1 + s = t0 + (s + 1) := by omega
        rw [harith]
        exact hpre (s + 1) (by omega)
      · have harith : t0 + 1 + t = t0 + (t + 1) := by omega
        rw [harith]
        exact hq

/-- C5: the running flag is consulted only at the top of each full pass;
once the first `quit` lands during pass `t`, the loop performs exactly
passes `0 .. t` (the pass in progress completes, none is cut short) and
then exits, so no later event is enqueued — and the emitted sequence is
unaffected by whatever the raw key-state query would report on ticks
after `t`. -/
theorem quit_stops_at_pass_boundary (raws : Nat → Nat → Int)
    (sched : Nat → Bool) (vk : List Int) (t fuel : Nat) (prev : List Bool)
    (hpre : ∀ s, s < t → sched s = false) (hq : sched t = true)
    (hf : t + 1 ≤ fuel) :
    listen_loop raws sched vk fuel 0 prev true
        = run_passes raws vk (t + 1) 0 prev
    ∧ ∀ raws' : Nat → Nat → Int, (∀ s, s ≤ t → raws' s = raws s) →
        listen_loop raws' sched vk fuel 0 prev true
          = listen_loop raws sched vk fuel 0 prev true := by
  have hpre0 : ∀ s, s < t → sched (0 + s) = false := by
    intro s hs
    rw [Nat.zero_add]
    exact hpre s hs
  have hq0 : sched (0 + t) = true := by
    rw [Nat.zero_add]
    exact hq
  have hmain := listen_loop_first_quit raws sched vk t fuel 0 prev hpre0 hq0 hf
  refine ⟨hmain, fun raws' hagree => ?_⟩
  have hmain' := listen_loop_first_quit raws' sched vk t fuel 0 prev hpre0 hq0 hf
  rw [hmain, hmain']
  exact run_passes_congr raws raws' vk (t + 1) 0 prev
    (fun s hs1 hs2 => hagree s (by omega))

/-- Closed witness for `quit_stops_at_pass_boundary`: with `quit` landing
during the very first pass, a two-pass fuel budget emits exactly the first
pass's events. -/
theorem quit_stops_at_pass_boundary_witness :
    ((fun s : Nat => s == 0) 0 = true)
    ∧ (listen_loop (fun _ _ => sample_down) (fun s => s == 0) [0x41] 2 0
          [false] true
        = run_passes (fun _ _ => sample_down) [0x41] 1 0 [false]
      ∧ ∀ raws' : Nat → Nat → Int, (∀ s, s ≤ 0 → raws' s = (fun _ _ => sample_down) s) →
          listen_loop raws' (fun s => s == 0) [0x41] 2 0 [false] true
            = listen_loop (fun _ _ => sample_down) (fun s => s == 0) [0x41] 2 0
                [false] true) :=
  ⟨rfl, quit_stops_at_pass_boundary (fun _ _ => sample_down) (fun s => s == 0)
    [0x41] 0 2 [false] (fun s hs => absurd hs (by omega)) rfl (by omega)⟩

/-- The channel-threaded pass with a closed consumer: nothing is ever
enqueued, state evolution as in the plain pass. -/
theorem listen_pass_ch_aux_closed (raw : Nat → Int) (vk : List Int) :
    ∀ (n i : Nat) (q : List KeyEvent) (prev : List Bool),
      listen_pass_ch_aux false raw vk n i q prev
        = (q, (listen_pass_aux raw vk n i prev).2) := by
  intro n
  induction n with
  | zero => intro i q prev; rfl
  | succ n ih =>
    intro i q prev
    simp only [listen_pass_ch_aux, listen_pass_aux]
    cases h : (get_key_state (raw i) i prev).1 <;>
      simp only [h, send_event, if_neg, Bool.false_eq_true, ite_false] <;>
      rw [ih]

/-- The channel-threaded pass with a live consumer appends exactly the
plain pass's events. -/
theorem listen_pass_ch_aux_open (raw : Nat → Int) (vk : List Int) :
    ∀ (n i : Nat) (q : List KeyEvent) (prev : List Bool),
      listen_pass_ch_aux true raw vk n i q prev
        = (q ++ (listen_pass_aux raw vk n i prev).1,
           (listen_pass_aux raw vk n i prev).2) := by
  intro n
  induction n with
  | zero => intro i q prev; simp [listen_pass_ch_aux, listen_pass_aux]
  | succ n ih =>
    intro i q prev
    simp only [listen_pass_ch_aux, listen_pass_aux]
    cases h : (get_key_state (raw i) i prev).1 <;>
      simp [h, send_event, transition_events, ih]

/-- C9: when the consumer side of the channel is closed, every enqueue of
a Press or Release is silently dropped (`let _ = sender.send(..)`): the
queue is left untouched, while the pass's state evolution — the
unconditional previous-state updates — is identical to the live-consumer
run, which appends exactly the pass's events in order. -/
theorem closed_channel_send_dropped :
    (∀ (raw : Nat → Int) (vk : List Int) (q : List KeyEvent)
        (prev : List Bool),
        (listen_pass_ch false raw vk q prev).1 = q)
    ∧ (∀ (b : Bool) (raw : Nat → Int) (vk : List Int) (q : List KeyEvent)
        (prev : List Bool),
        (listen_pass_ch b raw vk q prev).2 = (listen_pass raw vk prev).2)
    ∧ (∀ (raw : Nat → Int) (vk : List Int) (q : List KeyEvent)
        (prev : List Bool),
        (listen_pass_ch true raw vk q prev).1
          = q ++ (listen_pass raw vk prev).1) := by
  refine ⟨fun raw vk q prev => ?_, fun b raw vk q prev => ?_,
    fun raw vk q prev => ?_⟩
  · rw [listen_pass_ch, listen_pass_ch_aux_closed]
  · cases b
    · rw [listen_pass_ch, listen_pass_ch_aux_closed]
      rfl
    · rw [listen_pass_ch, listen_pass_ch_aux_open]
      rfl
  · rw [listen_pass_ch, listen_pass_ch_aux_open]
    rfl

/-- C10: `listen` begins by storing `true` into the shared flag whatever
its current value, so a `quit` that lands before the spawned task reaches
that store is overwritten: the run from a pre-cleared flag (in particular
from a freshly quit listener's state) is identical to the run from `true`,
and the loop does run its passes. -/
theorem listen_stores_true_first :
    (∀ (raws : Nat → Nat → Int) (sched : Nat → Bool) (vk : List Int)
        (fuel : Nat) (prev : List Bool) (b : Bool),
        listen_run raws sched vk fuel prev b
          = listen_run raws sched vk fuel prev true)
    ∧ (∀ (raws : Nat → Nat → Int) (vk : List Int) (prev : List Bool)
        (n : Nat),
        listen_run raws (fun _ => false) vk (n + 1) prev false
          = (listen_pass (raws 0) vk prev).1
            ++ listen_loop raws (fun _ => false) vk n 1
                (listen_pass (raws 0) vk prev).2 true)
    ∧ (∀ (l : KeyListener) (raws : Nat → Nat → Int) (sched : Nat → Bool)
        (fuel : Nat),
        listen_run raws sched (l.quit).vk_codes fuel
            (l.quit).previous_key_states (l.quit).is_watching
          = listen_run raws sched l.vk_codes fuel l.previous_key_states
              true) := by
  refine ⟨fun _ _ _ _ _ _ => rfl, fun raws vk prev n => ?_,
    fun _ _ _ _ => rfl⟩
  simp [listen_run, listen_loop]

/-- C3: for a single key starting from the initial "up" previous state,
emitted events strictly alternate beginning with Press (so a Press always
precedes its matching Release and no two consecutive events for the key
coincide); the simulated down→up→down sample sequence over three ticks
emits exactly [Press, Release, Press]. -/
theorem single_key_alternation :
    (∀ (k : Int) (raws : List (Nat → Int)),
        alternates_from true (run_ticks [k] raws [false]).1 = true)
    ∧ ∀ k : Int,
        (run_ticks [k]
            [fun _ => sample_down, fun _ => sample_up, fun _ => sample_down]
            [false]).1
          = [KeyEvent.Press k, KeyEvent.Release k, KeyEvent.Press k] := by
  constructor
  · intro k raws
    simpa using run_ticks_single_alternates k raws false
  · intro k
    simp [run_ticks, listen_pass_single, key_down_test_sample_down,
      key_down_test_sample_up, classify, transition_events]

end WinKeyEvent
